import Mathlib

/-!
Verification of the Monkey King Evolution (MKE) family in the NiaPy
repository.  The development shallowly embeds the two source files
src/NiaPy/algorithms/basic/mke.py (old code base) and
src/niapy/algorithms/basic/mke.py (new code base).  Real numbers are
modelled by the rationals, numpy vectors by lists of rationals and numpy
matrices by lists of rows.  Randomness is modelled by passing the drawn
values (index choices, uniform samples) explicitly as inputs, so every
statement quantifies over all possible draws.
-/

namespace Mke

/-! ### Vector operations (numpy elementwise arithmetic on equal-length arrays) -/

/-- Elementwise addition of two vectors. -/
def vAdd (u v : List ℚ) : List ℚ := List.zipWith (· + ·) u v

/-- Elementwise subtraction of two vectors. -/
def vSub (u v : List ℚ) : List ℚ := List.zipWith (· - ·) u v

/-- Elementwise (Hadamard) product of two vectors. -/
def vMul (u v : List ℚ) : List ℚ := List.zipWith (· * ·) u v

/-- Scalar times vector. -/
def sMul (c : ℚ) (v : List ℚ) : List ℚ := v.map (fun a => c * a)

/-! ### Task: bounds and objective function

The Task object of the framework carries the box bounds and the wrapped
objective function; only those parts are needed by the claims. -/

structure Task where
  lower : List ℚ
  upper : List ℚ
  eval : List ℚ → ℚ

/-! ### Boundary repair

Embeds MonkeyKingEvolutionV1.repair and MkeSolution.repair of
src/NiaPy/algorithms/basic/mke.py: first every component above the upper
bound is set to the upper bound, then every component below the lower
bound is set to the lower bound. -/

/-- First pass of repair: components above the upper bound are set to it. -/
def clampUpper (u v : ℚ) : ℚ := if v > u then u else v

/-- Second pass of repair: components below the lower bound are set to it. -/
def clampLower (l v : ℚ) : ℚ := if v < l then l else v

/-- The repair operation of the source: upper clamp, then lower clamp,
componentwise. -/
def repair (lower upper x : List ℚ) : List ℚ :=
  List.zipWith clampLower lower (List.zipWith clampUpper upper x)

/-! ### MkeSolution -/

/-- Monkey King Evolution individual: position, fitness, personal best
position and fitness, and the monkey king (elite) role flag. -/
structure MkeSolution where
  x : List ℚ
  f : ℚ
  x_pb : List ℚ
  f_pb : ℚ
  monkey_king : Bool
deriving Repr, DecidableEq

/-- Default individual used when reading a population list out of range. -/
def dSol : MkeSolution := ⟨[], 0, [], 0, false⟩

/-- MkeSolution.update_personal_best of src/niapy/algorithms/basic/mke.py
(identical to MkeSolution.uPersonalBest of the old code base): on strict
improvement of the current fitness over the personal best fitness, both
personal best fields are overwritten with the current state. -/
def update_personal_best (s : MkeSolution) : MkeSolution :=
  if s.f < s.f_pb then { s with x_pb := s.x, f_pb := s.f } else s

/-! ### numpy argmin / argmax (first index attaining the extremum) -/

/-- Index of the first occurrence of the minimum of a list
(numpy.argmin semantics); 0 on the empty list. -/
def argminIdx : List ℚ → Nat
  | [] => 0
  | [_] => 0
  | a :: b :: t =>
    let j := argminIdx (b :: t)
    if (b :: t).getD j 0 < a then j + 1 else 0

/-- Index of the first occurrence of the maximum of a list
(numpy.argmax semantics); 0 on the empty list. -/
def argmaxIdx : List ℚ → Nat
  | [] => 0
  | [_] => 0
  | a :: b :: t =>
    let j := argmaxIdx (b :: t)
    if a < (b :: t).getD j 0 then j + 1 else 0

/-- Minimum value of a list of fitnesses; 0 on the empty list. -/
def listMin : List ℚ → ℚ
  | [] => 0
  | [a] => a
  | a :: b :: t => min a (listMin (b :: t))

/-- Maximum value of a list of fitnesses; 0 on the empty list. -/
def listMax : List ℚ → ℚ
  | [] => 0
  | [a] => a
  | a :: b :: t => max a (listMax (b :: t))

/-! ### Basic lemmas about the extremum helpers -/

theorem listMin_le : ∀ (l : List ℚ), ∀ q ∈ l, listMin l ≤ q
  | [_], q, hq => by
      simp only [List.mem_singleton] at hq
      simp [listMin, hq]
  | a :: b :: t, q, hq => by
      rcases List.mem_cons.mp hq with h | h
      · simp only [listMin, h]
        exact min_le_left _ _
      · exact le_trans (min_le_right _ _) (listMin_le (b :: t) q h)

theorem le_listMax : ∀ (l : List ℚ), ∀ q ∈ l, q ≤ listMax l
  | [_], q, hq => by
      simp only [List.mem_singleton] at hq
      simp [listMax, hq]
  | a :: b :: t, q, hq => by
      rcases List.mem_cons.mp hq with h | h
      · simp only [listMax, h]
        exact le_max_left _ _
      · exact le_trans (le_listMax (b :: t) q h) (le_max_right _ _)

theorem listMax_le : ∀ (l : List ℚ), l ≠ [] → ∀ m : ℚ, (∀ q ∈ l, q ≤ m) → listMax l ≤ m
  | [a], _, m, hm => by
      simp only [listMax]
      exact hm a (List.mem_singleton_self a)
  | a :: b :: t, _, m, hm => by
      have ih := listMax_le (b :: t) (by simp) m (fun q hq => hm q (List.mem_cons_of_mem a hq))
      simp only [listMax, max_le_iff]
      exact ⟨hm a (List.mem_cons_self a (b :: t)), ih⟩

theorem argminIdx_lt_length : ∀ (l : List ℚ), l ≠ [] → argminIdx l < l.length
  | [_], _ => by simp [argminIdx]
  | a :: b :: t, _ => by
      have ih := argminIdx_lt_length (b :: t) (by simp)
      simp only [argminIdx]
      split
      · simpa using Nat.succ_lt_succ ih
      · simp

theorem argmaxIdx_lt_length : ∀ (l : List ℚ), l ≠ [] → argmaxIdx l < l.length
  | [_], _ => by simp [argmaxIdx]
  | a :: b :: t, _ => by
      have ih := argmaxIdx_lt_length (b :: t) (by simp)
      simp only [argmaxIdx]
      split
      · simpa using Nat.succ_lt_succ ih
      · simp

theorem getD_argminIdx : ∀ (l : List ℚ), l ≠ [] → l.getD (argminIdx l) 0 = listMin l
  | [_], _ => by simp [argminIdx, listMin]
  | a :: b :: t, _ => by
      have ih := getD_argminIdx (b :: t) (by simp)
      simp only [argminIdx, listMin]
      split
      · rename_i h
        rw [List.getD_cons_succ, ih]
        rw [ih] at h
        exact (min_eq_right (le_of_lt h)).symm
      · rename_i h
        rw [ih] at h
        rw [List.getD_cons_zero]
        exact (min_eq_left (not_lt.mp h)).symm

theorem getD_argmaxIdx : ∀ (l : List ℚ), l ≠ [] → l.getD (argmaxIdx l) 0 = listMax l
  | [_], _ => by simp [argmaxIdx, listMax]
  | a :: b :: t, _ => by
      have ih := getD_argmaxIdx (b :: t) (by simp)
      simp only [argmaxIdx, listMax]
      split
      · rename_i h
        rw [List.getD_cons_succ, ih]
        rw [ih] at h
        exact (max_eq_right (le_of_lt h)).symm
      · rename_i h
        rw [ih] at h
        rw [List.getD_cons_zero]
        exact (max_eq_left (not_lt.mp h)).symm

theorem argminIdx_first : ∀ (l : List ℚ), ∀ j < argminIdx l, l.getD (argminIdx l) 0 < l.getD j 0
  | [], j, hj => by simp [argminIdx] at hj
  | [_], j, hj => by simp [argminIdx] at hj
  | a :: b :: t, j, hj => by
      have ih := argminIdx_first (b :: t)
      simp only [argminIdx] at hj ⊢
      split at hj
      · rename_i h
        rw [if_pos h]
        cases j with
        | zero => simpa using h
        | succ k =>
            rw [List.getD_cons_succ, List.getD_cons_succ]
            exact ih k (Nat.lt_of_succ_lt_succ hj)
      · exact absurd hj (Nat.not_lt_zero j)

theorem getD_zipWith_poly {α β γ : Type} (f : α → β → γ) (da : α) (db : β) (dc : γ) :
    ∀ (a : List α) (b : List β) (i : ℕ), i < a.length → i < b.length →
      (List.zipWith f a b).getD i dc = f (a.getD i da) (b.getD i db)
  | _ :: _, _ :: _, 0, _, _ => rfl
  | _ :: ta, _ :: tb, i + 1, ha, hb => by
      simp only [List.zipWith_cons_cons, List.getD_cons_succ]
      exact getD_zipWith_poly f da db dc ta tb i
        (Nat.lt_of_succ_lt_succ ha) (Nat.lt_of_succ_lt_succ hb)

theorem getD_zipWith (f : ℚ → ℚ → ℚ) (a b : List ℚ) (i : ℕ)
    (ha : i < a.length) (hb : i < b.length) :
    (List.zipWith f a b).getD i 0 = f (a.getD i 0) (b.getD i 0) :=
  getD_zipWith_poly f 0 0 0 a b i ha hb

theorem getD_sMul (c : ℚ) :
    ∀ (v : List ℚ) (j : ℕ), j < v.length →
      (sMul c v).getD j 0 = c * v.getD j 0
  | _ :: _, 0, _ => rfl
  | _ :: t, j + 1, h => by
      simp only [sMul, List.map_cons, List.getD_cons_succ]
      have ih := getD_sMul c t j (Nat.lt_of_succ_lt_succ h)
      simpa [sMul] using ih

theorem length_zipWith (f : ℚ → ℚ → ℚ) (a b : List ℚ) :
    (List.zipWith f a b).length = min a.length b.length := by
  rw [List.length_zipWith]

/-! ### Claim theorems: personal best, repair, mask complement -/

/-- C4.  MkeSolution.update_personal_best overwrites the personal best
position and fitness with the current position and fitness exactly when
the current fitness is strictly below the personal best fitness; on a tie
or worse both fields are left unchanged.  Afterwards the personal best
fitness is at most the current fitness and equals the minimum of its
previous value and the current fitness, so it never increases. -/
theorem update_personal_best_spec (s : MkeSolution) :
    (s.f < s.f_pb →
      update_personal_best s = { s with x_pb := s.x, f_pb := s.f }) ∧
    (¬ s.f < s.f_pb → update_personal_best s = s) ∧
    (update_personal_best s).f_pb ≤ s.f ∧
    (update_personal_best s).f_pb = min s.f_pb s.f ∧
    (update_personal_best s).f_pb ≤ s.f_pb ∧
    (update_personal_best s).x = s.x ∧ (update_personal_best s).f = s.f := by
  unfold update_personal_best
  by_cases h : s.f < s.f_pb
  · simp [h, min_eq_right (le_of_lt h), le_of_lt h]
  · simp [h, min_eq_left (not_lt.mp h), not_lt.mp h]

/-- Witness for C4 at a concrete individual. -/
theorem update_personal_best_spec_witness :
    (update_personal_best ⟨[2], 3, [5], 7, false⟩).f_pb = min 7 3 :=
  (update_personal_best_spec ⟨[2], 3, [5], 7, false⟩).2.2.2.1

/-- C8.  The two-pass repair of the source (clip above the upper bound,
then clip below the lower bound) clamps every component to the nearest
bound when the bounds satisfy lower i ≤ upper i: components above the
upper bound become the upper bound, components below the lower bound
become the lower bound, in-range components are unchanged, and every
component of the result lies inside the bound interval.  The result is a
pure function of the input vector and the bounds. -/
theorem repair_clamps (lower upper x : List ℚ)
    (hl : lower.length = x.length) (hu : upper.length = x.length)
    (hlu : ∀ i, i < x.length → lower.getD i 0 ≤ upper.getD i 0) :
    (repair lower upper x).length = x.length ∧
    ∀ i, i < x.length →
      ((upper.getD i 0 < x.getD i 0 →
          (repair lower upper x).getD i 0 = upper.getD i 0) ∧
       (x.getD i 0 < lower.getD i 0 →
          (repair lower upper x).getD i 0 = lower.getD i 0) ∧
       (lower.getD i 0 ≤ x.getD i 0 → x.getD i 0 ≤ upper.getD i 0 →
          (repair lower upper x).getD i 0 = x.getD i 0) ∧
       lower.getD i 0 ≤ (repair lower upper x).getD i 0 ∧
       (repair lower upper x).getD i 0 ≤ upper.getD i 0) := by
  have hlen : (repair lower upper x).length = x.length := by
    unfold repair
    rw [length_zipWith, length_zipWith, hl, hu]
    simp
  refine ⟨hlen, fun i hi => ?_⟩
  have hstep : (repair lower upper x).getD i 0 =
      clampLower (lower.getD i 0) (clampUpper (upper.getD i 0) (x.getD i 0)) := by
    unfold repair
    rw [getD_zipWith _ _ _ i (by omega) (by rw [length_zipWith]; omega),
        getD_zipWith _ _ _ i (by omega) (by omega)]
  have hb := hlu i hi
  rw [hstep]
  unfold clampLower clampUpper
  refine ⟨fun h => ?_, fun h => ?_, fun h1 h2 => ?_, ?_, ?_⟩ <;>
    split_ifs <;> linarith

/-- Witness for C8 at concrete bounds and position. -/
theorem repair_clamps_witness :
    (repair [0, 0] [10, 10] [-3, 12]).getD 0 0 = 0 ∧
    (repair [0, 0] [10, 10] [-3, 12]).getD 1 0 = 10 := by
  have h := repair_clamps [0, 0] [10, 10] [-3, 12] rfl rfl
    (by
      intro i hi
      simp only [List.length_cons, List.length_nil] at hi
      have h01 : i = 0 ∨ i = 1 := by omega
      rcases h01 with h0 | h0 <;> subst h0 <;> norm_num)
  refine ⟨?_, ?_⟩
  · have h0 := (h.2 0 (by norm_num)).2.1
    exact h0 (by norm_num)
  · have h1 := (h.2 1 (by norm_num)).1
    exact h1 (by norm_num)

/-- MonkeyKingEvolutionV3.neg of the source: 0 when the input equals 1,
otherwise 1. -/
def neg (x : ℚ) : ℚ := if x = 1 then 0 else 1

/-- C10.  The mask-complement transform neg maps 1 to 0 and every other
input (0 included, non-binary values included) to 1; on the binary domain
it agrees with x ↦ 1 - x and is an involution, while for any non-binary
input x the double application gives 0, not x. -/
theorem neg_spec :
    neg 1 = 0 ∧
    (∀ x : ℚ, x ≠ 1 → neg x = 1) ∧
    (∀ x : ℚ, x = 0 ∨ x = 1 → neg x = 1 - x) ∧
    (∀ x : ℚ, x = 0 ∨ x = 1 → neg (neg x) = x) ∧
    (∀ x : ℚ, x ≠ 0 → x ≠ 1 → neg (neg x) = 0) := by
  refine ⟨by norm_num [neg], fun x hx => by simp [neg, hx], ?_, ?_, ?_⟩
  · rintro x (rfl | rfl) <;> norm_num [neg]
  · rintro x (rfl | rfl) <;> norm_num [neg]
  · intro x hx0 hx1
    simp [neg, hx1]

/-! ### C1: the MonkeyKingEvolutionV3 step-1 candidate batch

The source line (both code bases agree) is
  best_x + self.fc * population[choice] - population[choice]
so by operator precedence the scale factor fc multiplies only the first
batch of sampled rows; the second batch is subtracted unscaled. -/

/-- Rows of the population at the sampled indices (numpy fancy indexing;
sampling is with replacement in the source, so the index list is
arbitrary). -/
def sampleRows (pop : List (List ℚ)) (idxs : List ℕ) : List (List ℚ) :=
  idxs.map (fun i => pop.getD i [])

/-- The candidate batch exactly as the source computes it:
row i is (best_x + fc * A i) - B i, where A and B are the two batches of
sampled rows. -/
def xGbCode (best_x : List ℚ) (fc : ℚ) (A B : List (List ℚ)) : List (List ℚ) :=
  List.zipWith (fun a b => vSub (vAdd best_x (sMul fc a)) b) A B

/-- Candidate batch following the words of the spec sentence:
row i is best_x + fc * (A i - B i).  Stated only to be compared with
xGbCode, the definition taken from the source. -/
def xGbSpecWords (best_x : List ℚ) (fc : ℚ) (A B : List (List ℚ)) : List (List ℚ) :=
  List.zipWith (fun a b => vAdd best_x (sMul fc (vSub a b))) A B

/-- C1, counterexample.  With global best (0), fc = 1/2 and both sampled
rows equal to (2), the source formula gives (-1) while the spec formula
gives (0): the fc factor does not multiply the whole row difference. -/
theorem xGbCode_ne_xGbSpecWords :
    xGbCode [0] (1/2) [[2]] [[2]] ≠ xGbSpecWords [0] (1/2) [[2]] [[2]] := by
  unfold xGbCode xGbSpecWords vAdd vSub sMul
  norm_num

/-- C1, amended.  In MonkeyKingEvolutionV3's per-iteration step 1 every
entry of the candidate batch is global_best + fc * sampled_row_a -
sampled_row_b componentwise: the fc factor multiplies only the first
sampled row, and the second sampled row is subtracted without scaling. -/
theorem xGbCode_entry (best_x : List ℚ) (fc : ℚ) (A B : List (List ℚ))
    (i j : ℕ) (hiA : i < A.length) (hiB : i < B.length)
    (hjx : j < best_x.length) (hja : j < (A.getD i []).length)
    (hjb : j < (B.getD i []).length) :
    ((xGbCode best_x fc A B).getD i []).getD j 0 =
      best_x.getD j 0 + fc * (A.getD i []).getD j 0 - (B.getD i []).getD j 0 := by
  have hrow : (xGbCode best_x fc A B).getD i [] =
      vSub (vAdd best_x (sMul fc (A.getD i []))) (B.getD i []) := by
    unfold xGbCode
    exact getD_zipWith_poly _ [] [] [] A B i hiA hiB
  rw [hrow]
  unfold vSub vAdd
  rw [getD_zipWith _ _ _ j
        (by rw [List.length_zipWith]; simp only [sMul, List.length_map]; omega) (by omega),
      getD_zipWith _ _ _ j (by omega) (by simp only [sMul, List.length_map]; omega),
      getD_sMul fc _ j hja]

/-- Witness for C1's amended theorem at a concrete input. -/
theorem xGbCode_entry_witness :
    ((xGbCode [0] (1/2) [[2]] [[2]]).getD 0 []).getD 0 0 =
      (0 : ℚ) + (1/2) * 2 - 2 :=
  xGbCode_entry [0] (1/2) [[2]] [[2]] 0 0 (by norm_num) (by norm_num)
    (by norm_num) (by norm_num) (by norm_num)

/-! ### C3: the MonkeyKingEvolutionV3 step-5 one-slot elitist injection

Embeds the tail of MonkeyKingEvolutionV3.run_iteration of
src/niapy/algorithms/basic/mke.py:
  iw, ib_gb = argmax(population_fitness), argmin(x_gb_f)
  if x_gb_f[ib_gb] <= population_fitness[iw]:
      population[iw], population_fitness[iw] = x_gb[ib_gb], x_gb_f[ib_gb] -/

/-- The step-5 injection: the worst population row is overwritten with
the best candidate-batch row when the latter is no worse. -/
def elitistInjection (pop : List (List ℚ)) (popF : List ℚ)
    (xgb : List (List ℚ)) (xgbF : List ℚ) : List (List ℚ) × List ℚ :=
  let iw := argmaxIdx popF
  let ib := argminIdx xgbF
  if xgbF.getD ib 0 ≤ popF.getD iw 0 then
    (pop.set iw (xgb.getD ib []), popF.set iw (xgbF.getD ib 0))
  else (pop, popF)

/-- C3.  The row at the first index of maximum population fitness is
replaced by the candidate row of minimum fitness exactly when that
candidate fitness is at most the population's maximum fitness (ties
included), and the population's maximum fitness never increases through
the injection. -/
theorem mkev3_step5_injection (pop : List (List ℚ)) (popF : List ℚ)
    (xgb : List (List ℚ)) (xgbF : List ℚ)
    (hp : popF ≠ []) (hx : xgbF ≠ []) :
    (listMin xgbF ≤ listMax popF →
       elitistInjection pop popF xgb xgbF =
         (pop.set (argmaxIdx popF) (xgb.getD (argminIdx xgbF) []),
          popF.set (argmaxIdx popF) (listMin xgbF))) ∧
    (listMax popF < listMin xgbF →
       elitistInjection pop popF xgb xgbF = (pop, popF)) ∧
    listMax (elitistInjection pop popF xgb xgbF).2 ≤ listMax popF := by
  have hmin : xgbF.getD (argminIdx xgbF) 0 = listMin xgbF := getD_argminIdx xgbF hx
  have hmax : popF.getD (argmaxIdx popF) 0 = listMax popF := getD_argmaxIdx popF hp
  unfold elitistInjection
  dsimp only
  rw [hmin, hmax]
  by_cases hc : listMin xgbF ≤ listMax popF
  · rw [if_pos hc]
    refine ⟨fun _ => rfl, fun h => absurd hc (not_le.mpr h), ?_⟩
    have hne : popF.set (argmaxIdx popF) (listMin xgbF) ≠ [] := by
      apply List.ne_nil_of_length_pos
      rw [List.length_set]
      exact List.length_pos.mpr hp
    apply listMax_le _ hne
    intro q hq
    rcases List.mem_or_eq_of_mem_set hq with h | h
    · exact le_listMax popF q h
    · rw [h]
      exact hc
  · rw [if_neg hc]
    exact ⟨fun h => absurd h hc, fun _ => rfl, le_refl _⟩

/-- Witness for C3 at a concrete population and candidate batch. -/
theorem mkev3_step5_injection_witness :
    listMax (elitistInjection [[1], [9]] [1, 9] [[5]] [5]).2 ≤ listMax [1, 9] :=
  (mkev3_step5_injection [[1], [9]] [1, 9] [[5]] [5]
    (by simp) (by simp)).2.2

theorem getD_map_poly {α β : Type} (f : α → β) (da : α) (db : β) :
    ∀ (l : List α) (i : ℕ), i < l.length → (l.map f).getD i db = f (l.getD i da)
  | _ :: _, 0, _ => rfl
  | _ :: t, i + 1, h => by
      simp only [List.map_cons, List.getD_cons_succ]
      exact getD_map_poly f da db t i (Nat.lt_of_succ_lt_succ h)

/-! ### C6: the MonkeyKingEvolutionV1 elite move

Embeds MonkeyKingEvolutionV1.move_mk and move_monkey_king_particle of
src/niapy/algorithms/basic/mke.py (the old code base moveMK and
moveMokeyKingPartice are identical up to naming): the elite spawns one
offspring per row of a uniform random matrix with c * dimension rows,
each offspring is repaired and evaluated, and the elite is replaced by
the offspring at the first index of minimum fitness, unconditionally. -/

/-- A random matrix with the given number of rows and columns; g i j is
the drawn entry. -/
def randMatrix (rows dim : ℕ) (g : ℕ → ℕ → ℚ) : List (List ℚ) :=
  (List.range rows).map (fun i => (List.range dim).map (g i))

/-- MonkeyKingEvolutionV1.move_mk: the offspring batch x + fc * R ⊙ x,
one row per row of the random matrix R. -/
def move_mk (fc : ℚ) (x : List ℚ) (R : List (List ℚ)) : List (List ℚ) :=
  R.map (fun r => vAdd x (vMul (sMul fc r) x))

/-- MonkeyKingEvolutionV1.move_monkey_king_particle: clear the elite flag,
repair and evaluate every offspring row, and replace the particle's
position and fitness with the offspring at the first argmin of fitness. -/
def move_monkey_king_particle (fc : ℚ) (t : Task) (R : List (List ℚ))
    (p : MkeSolution) : MkeSolution :=
  let A := (move_mk fc p.x R).map (repair t.lower t.upper)
  let Af := A.map t.eval
  let ib := argminIdx Af
  { p with monkey_king := false, x := A.getD ib [], f := Af.getD ib 0 }

/-- C6.  With a random matrix of c * dimension rows the elite generates
exactly c * dimension offspring, offspring i being the repair of
position + fc * row i ⊙ position (elementwise); the elite's position and
fitness are unconditionally replaced by the offspring of minimum fitness,
ties resolved to the first index attaining the minimum; the personal best
fields are untouched and the elite flag is cleared. -/
theorem mkev1_elite_move (c dim : ℕ) (fc : ℚ) (t : Task) (g : ℕ → ℕ → ℚ)
    (p : MkeSolution) (hc : 0 < c * dim) :
    let R := randMatrix (c * dim) dim g
    let A := (move_mk fc p.x R).map (repair t.lower t.upper)
    let Af := A.map t.eval
    let q := move_monkey_king_particle fc t R p
    A.length = c * dim ∧
    (∀ i, i < c * dim →
       A.getD i [] =
         repair t.lower t.upper (vAdd p.x (vMul (sMul fc (R.getD i [])) p.x))) ∧
    q.x = A.getD (argminIdx Af) [] ∧
    q.f = listMin Af ∧
    (∀ j, j < argminIdx Af → listMin Af < Af.getD j 0) ∧
    q.x_pb = p.x_pb ∧ q.f_pb = p.f_pb ∧ q.monkey_king = false := by
  intro R A Af q
  have hRlen : R.length = c * dim := by
    simp only [R, randMatrix, List.length_map, List.length_range]
  have hAlen : A.length = c * dim := by
    simp only [A, move_mk, List.length_map]
    exact hRlen
  have hAflen : Af.length = c * dim := by
    simp only [Af, List.length_map]
    exact hAlen
  have hAfne : Af ≠ [] := by
    apply List.ne_nil_of_length_pos
    omega
  refine ⟨hAlen, ?_, rfl, ?_, ?_, rfl, rfl, rfl⟩
  · intro i hi
    have h1 : A.getD i [] = repair t.lower t.upper ((move_mk fc p.x R).getD i []) := by
      simp only [A]
      exact getD_map_poly _ [] [] _ i (by simp only [move_mk, List.length_map]; omega)
    rw [h1]
    have h2 : (move_mk fc p.x R).getD i [] = vAdd p.x (vMul (sMul fc (R.getD i [])) p.x) := by
      simp only [move_mk]
      exact getD_map_poly _ [] [] R i (by omega)
    rw [h2]
  · have : q.f = Af.getD (argminIdx Af) 0 := rfl
    rw [this]
    exact getD_argminIdx Af hAfne
  · intro j hj
    have h := argminIdx_first Af j hj
    rwa [getD_argminIdx Af hAfne] at h

/-- Witness for C6 at concrete parameters: one offspring of one elite in
dimension one. -/
theorem mkev1_elite_move_witness :
    (move_monkey_king_particle (1/2) ⟨[0], [10], fun v => v.getD 0 0⟩
        (randMatrix 1 1 (fun _ _ => 1)) ⟨[1], 1, [1], 1, true⟩).f =
      listMin ((((move_mk (1/2) [1] (randMatrix 1 1 (fun _ _ => 1))).map
        (repair [0] [10])).map (fun v => v.getD 0 0))) := by
  have h := mkev1_elite_move 1 1 (1/2) ⟨[0], [10], fun v => v.getD 0 0⟩
    (fun _ _ => 1) ⟨[1], 1, [1], 1, true⟩ (by norm_num)
  exact h.2.2.2.1

/-! ### C5: the MonkeyKingEvolutionV2 elite move

Embeds MonkeyKingEvolutionV2.move_mk and move_monkey_king_particle of
src/niapy/algorithms/basic/mke.py (identical to moveMK and
moveMokeyKingPartice of the old code base): int(c * population_size)
trials, each picking an index pair, building the candidate from the
elite's original position, repairing, evaluating, and keeping it only on
strict improvement; the accumulated best becomes the elite's new state. -/

/-- MonkeyKingEvolutionV2.move_mk: x - fc * dx. -/
def move_mk_v2 (fc : ℚ) (x dx : List ℚ) : List ℚ := vSub x (sMul fc dx)

/-- Candidate position of one trial: the repaired differential move from
the elite's original position x using the pair r of chosen indices. -/
def trialPosV2 (fc : ℚ) (t : Task) (pop : List MkeSolution) (x : List ℚ)
    (r : ℕ × ℕ) : List ℚ :=
  repair t.lower t.upper
    (move_mk_v2 fc x (vSub (pop.getD r.1 dSol).x (pop.getD r.2 dSol).x))

/-- Candidate fitness of one trial. -/
def trialFitV2 (fc : ℚ) (t : Task) (pop : List MkeSolution) (x : List ℚ)
    (r : ℕ × ℕ) : ℚ :=
  t.eval (trialPosV2 fc t pop x r)

/-- One loop body of move_monkey_king_particle: the tracked best pair is
replaced only when the freshly evaluated candidate is strictly better. -/
def mkTrialV2 (fc : ℚ) (t : Task) (pop : List MkeSolution) (x : List ℚ)
    (st : List ℚ × ℚ) (r : ℕ × ℕ) : List ℚ × ℚ :=
  let a := trialPosV2 fc t pop x r
  let af := t.eval a
  if af < st.2 then (a, af) else st

/-- MonkeyKingEvolutionV2.move_monkey_king_particle: fold the trials over
the tracked best starting from the elite's current state, then commit the
tracked best and clear the elite flag. -/
def move_monkey_king_particle_v2 (fc : ℚ) (t : Task) (pop : List MkeSolution)
    (rs : List (ℕ × ℕ)) (p : MkeSolution) : MkeSolution :=
  let st := rs.foldl (mkTrialV2 fc t pop p.x) (p.x, p.f)
  { p with monkey_king := false, x := st.1, f := st.2 }

theorem mkTrialV2_snd (fc : ℚ) (t : Task) (pop : List MkeSolution) (x : List ℚ)
    (st : List ℚ × ℚ) (r : ℕ × ℕ) :
    (mkTrialV2 fc t pop x st r).2 = min st.2 (trialFitV2 fc t pop x r) := by
  unfold mkTrialV2 trialFitV2
  dsimp only
  split
  · rename_i h
    exact (min_eq_right (le_of_lt h)).symm
  · rename_i h
    exact (min_eq_left (not_lt.mp h)).symm

theorem foldl_trials_snd (fc : ℚ) (t : Task) (pop : List MkeSolution) (x : List ℚ) :
    ∀ (rs : List (ℕ × ℕ)) (st : List ℚ × ℚ),
      (rs.foldl (mkTrialV2 fc t pop x) st).2 =
        (rs.map (trialFitV2 fc t pop x)).foldl min st.2
  | [], _ => rfl
  | r :: rs, st => by
      simp only [List.foldl_cons, List.map_cons]
      rw [foldl_trials_snd fc t pop x rs (mkTrialV2 fc t pop x st r),
          mkTrialV2_snd]

theorem foldl_min_le_init : ∀ (l : List ℚ) (b : ℚ), l.foldl min b ≤ b
  | [], _ => le_refl _
  | a :: l, b =>
      le_trans (foldl_min_le_init l (min b a)) (min_le_left _ _)

theorem foldl_min_le_mem : ∀ (l : List ℚ) (b q : ℚ), q ∈ l → l.foldl min b ≤ q
  | a :: l, b, q, hq => by
      rcases List.mem_cons.mp hq with h | h
      · subst h
        exact le_trans (foldl_min_le_init l (min b q)) (min_le_right _ _)
      · exact foldl_min_le_mem l (min b a) q h

theorem foldl_trials_cases (fc : ℚ) (t : Task) (pop : List MkeSolution) (x : List ℚ) :
    ∀ (rs : List (ℕ × ℕ)) (st : List ℚ × ℚ),
      rs.foldl (mkTrialV2 fc t pop x) st = st ∨
        (rs.foldl (mkTrialV2 fc t pop x) st).2 < st.2
  | [], _ => Or.inl rfl
  | r :: rs, st => by
      simp only [List.foldl_cons]
      rcases foldl_trials_cases fc t pop x rs (mkTrialV2 fc t pop x st r) with h | h
      · rw [h]
        unfold mkTrialV2
        dsimp only
        split
        · rename_i hlt
          exact Or.inr hlt
        · exact Or.inl rfl
      · have hle : (mkTrialV2 fc t pop x st r).2 ≤ st.2 := by
          rw [mkTrialV2_snd]
          exact min_le_left _ _
        exact Or.inr (lt_of_lt_of_le h hle)

/-- C5.  With the trial pairs listed by an index function over
c * population_size trials, the elite move performs exactly
c * population_size trials, each candidate is built from the elite's
original position via position - fc * (position at first index - position
at second index) followed by repair and evaluation, the tracked best is
replaced only on strict improvement, and the final state is the best of
the original state and all trials, so the final fitness never exceeds the
initial one; personal best fields are untouched and the elite flag is
cleared. -/
theorem mkev2_elite_move (c np : ℕ) (fc : ℚ) (t : Task) (pop : List MkeSolution)
    (pairs : ℕ → ℕ × ℕ) (p : MkeSolution) :
    let rs := (List.range (c * np)).map pairs
    let q := move_monkey_king_particle_v2 fc t pop rs p
    rs.length = c * np ∧
    q.f = (rs.map (trialFitV2 fc t pop p.x)).foldl min p.f ∧
    q.f ≤ p.f ∧
    (∀ r ∈ rs, q.f ≤ trialFitV2 fc t pop p.x r) ∧
    (q.f = p.f → q.x = p.x) ∧
    (∀ r ∈ rs, trialPosV2 fc t pop p.x r =
       repair t.lower t.upper
         (vSub p.x (sMul fc (vSub (pop.getD r.1 dSol).x (pop.getD r.2 dSol).x)))) ∧
    q.x_pb = p.x_pb ∧ q.f_pb = p.f_pb ∧ q.monkey_king = false := by
  intro rs q
  have hq2 : q.f = (rs.foldl (mkTrialV2 fc t pop p.x) (p.x, p.f)).2 := rfl
  have hfold := foldl_trials_snd fc t pop p.x rs (p.x, p.f)
  refine ⟨by simp [rs], ?_, ?_, ?_, ?_, ?_, rfl, rfl, rfl⟩
  · rw [hq2, hfold]
  · rw [hq2, hfold]
    exact foldl_min_le_init _ _
  · intro r hr
    rw [hq2, hfold]
    exact foldl_min_le_mem _ _ _ (List.mem_map_of_mem _ hr)
  · intro hf
    rcases foldl_trials_cases fc t pop p.x rs (p.x, p.f) with h | h
    · show (rs.foldl (mkTrialV2 fc t pop p.x) (p.x, p.f)).1 = p.x
      rw [h]
    · rw [hq2] at hf
      exact absurd hf (ne_of_lt h)
  · intro r _
    rfl

/-- Witness for C5 at a concrete elite, population and trial list. -/
theorem mkev2_elite_move_witness :
    (move_monkey_king_particle_v2 (1/2) ⟨[0], [10], fun v => v.getD 0 0⟩
        [⟨[1], 1, [1], 1, true⟩, ⟨[4], 4, [4], 4, false⟩]
        ((List.range (1 * 2)).map (fun _ => (0, 1))) ⟨[1], 1, [1], 1, true⟩).f ≤ 1 := by
  have h := mkev2_elite_move 1 2 (1/2) ⟨[0], [10], fun v => v.getD 0 0⟩
    [⟨[1], 1, [1], 1, true⟩, ⟨[4], 4, [4], 4, false⟩]
    (fun _ => (0, 1)) ⟨[1], 1, [1], 1, true⟩
  exact h.2.2.1

/-! ### The MonkeyKingEvolutionV1 population move and iteration
(old code base, MonkeyKingEvolutionV1.runTask of
src/NiaPy/algorithms/basic/mke.py)

The tracked best p_b of runTask is a reference to a member of the
population list, embedded here as an index bIdx into the population.
Particles are moved in order; a normal particle reads the tracked best's
current position from the population being mutated.  draws lists the
random numbers consumed by each particle: for an elite particle the
uniform matrix of its offspring batch, for a normal particle its single
uniform row (the first row of its entry). -/

/-- MonkeyKingEvolutionV1.move_p (moveP): x_pb + F * r ⊙ (x_b - x). -/
def move_p (F : ℚ) (r x x_pb x_b : List ℚ) : List ℚ :=
  vAdd x_pb (vMul (sMul F r) (vSub x_b x))

/-- movePartice of the old code base: the repaired move toward the
tracked best, followed by re-evaluation; the flag and the personal best
fields are untouched. -/
def movePartice (F : ℚ) (t : Task) (r x_b : List ℚ) (p : MkeSolution) : MkeSolution :=
  let x1 := repair t.lower t.upper (move_p F r p.x p.x_pb x_b)
  { p with x := x1, f := t.eval x1 }

/-- One step of the movePopulation loop: the particle at index i is moved
(elite: offspring batch; normal: move toward the tracked best read from
the current population) and then updates its personal best. -/
def moveStep (F fc : ℚ) (t : Task) (bIdx : ℕ) (pop : List MkeSolution)
    (i : ℕ) (d : List (List ℚ)) : List MkeSolution :=
  let p := pop.getD i dSol
  let xb := (pop.getD bIdx dSol).x
  let p1 := if p.monkey_king then
              update_personal_best (move_monkey_king_particle fc t d p)
            else
              update_personal_best (movePartice F t (d.getD 0 []) xb p)
  pop.set i p1

/-- movePopulation of the old code base: particles are processed in
index order over the whole population. -/
def movePopulation (F fc : ℚ) (t : Task) (bIdx : ℕ)
    (draws : List (List (List ℚ))) (pop : List MkeSolution) : List MkeSolution :=
  (List.range pop.length).foldl
    (fun acc i => moveStep F fc t bIdx acc i (draws.getD i [])) pop

/-- Set the monkey king flag of an individual. -/
def setKing (p : MkeSolution) : MkeSolution := { p with monkey_king := true }

/-- The elite-flagging loop of init_population and run_iteration: for
every sampled index the flag of that individual is set. -/
def flagElites (idxs : List ℕ) (pop : List MkeSolution) : List MkeSolution :=
  idxs.foldl (fun acc i => acc.set i (setKing (acc.getD i dSol))) pop

/-- Number of individuals currently flagged as monkey king. -/
def countKings (pop : List MkeSolution) : ℕ :=
  pop.countP (fun p => p.monkey_king)

/-- One iteration of MonkeyKingEvolutionV1.runTask of the old code base:
move the population, re-flag the sampled elites, then move the tracked
best reference to the population argmin when that is a strict
improvement over the tracked best's current fitness. -/
def runIterationV1 (F fc : ℚ) (t : Task) (draws : List (List (List ℚ)))
    (eliteIdxs : List ℕ) (pop : List MkeSolution) (bIdx : ℕ) :
    List MkeSolution × ℕ :=
  let pop1 := movePopulation F fc t bIdx draws pop
  let pop2 := flagElites eliteIdxs pop1
  let fs := pop2.map (fun p => p.f)
  let ib := argminIdx fs
  let bIdx2 := if fs.getD ib 0 < (pop2.getD bIdx dSol).f then ib else bIdx
  (pop2, bIdx2)

/-! Pointwise lemmas about set and getD used by the flag bookkeeping. -/

theorem getD_set_self (l : List MkeSolution) (i : ℕ) (a : MkeSolution)
    (h : i < l.length) : (l.set i a).getD i dSol = a := by
  simp [List.getD_eq_getElem?_getD, List.getElem?_set_self, h]

theorem getD_set_ne (l : List MkeSolution) (i j : ℕ) (a : MkeSolution)
    (h : i ≠ j) : (l.set i a).getD j dSol = l.getD j dSol := by
  simp [List.getD_eq_getElem?_getD, List.getElem?_set_ne h]

theorem update_personal_best_flag (s : MkeSolution) :
    (update_personal_best s).monkey_king = s.monkey_king := by
  unfold update_personal_best
  split <;> rfl

theorem moveStep_flag (F fc : ℚ) (t : Task) (bIdx : ℕ) (pop : List MkeSolution)
    (i : ℕ) (d : List (List ℚ)) (h : i < pop.length) :
    ((moveStep F fc t bIdx pop i d).getD i dSol).monkey_king = false := by
  unfold moveStep
  dsimp only
  rw [getD_set_self _ _ _ h]
  split
  · rw [update_personal_best_flag]
    rfl
  · rename_i hk
    rw [update_personal_best_flag]
    show (pop.getD i dSol).monkey_king = false
    exact Bool.not_eq_true _ ▸ Bool.eq_false_iff.mpr hk

theorem moveStep_length (F fc : ℚ) (t : Task) (bIdx : ℕ) (pop : List MkeSolution)
    (i : ℕ) (d : List (List ℚ)) :
    (moveStep F fc t bIdx pop i d).length = pop.length := by
  unfold moveStep
  exact List.length_set ..

theorem moveStep_getD_ne (F fc : ℚ) (t : Task) (bIdx : ℕ) (pop : List MkeSolution)
    (i j : ℕ) (d : List (List ℚ)) (h : i ≠ j) :
    (moveStep F fc t bIdx pop i d).getD j dSol = pop.getD j dSol := by
  unfold moveStep
  exact getD_set_ne _ _ _ _ h

theorem movePopulation_prefix_invariant (F fc : ℚ) (t : Task) (bIdx : ℕ)
    (draws : List (List (List ℚ))) (pop : List MkeSolution) :
    ∀ k, k ≤ pop.length →
      ((List.range k).foldl
          (fun acc i => moveStep F fc t bIdx acc i (draws.getD i [])) pop).length
        = pop.length ∧
      (∀ j, j < k →
        (((List.range k).foldl
            (fun acc i => moveStep F fc t bIdx acc i (draws.getD i [])) pop).getD j
          dSol).monkey_king = false) ∧
      (∀ j, k ≤ j →
        ((List.range k).foldl
            (fun acc i => moveStep F fc t bIdx acc i (draws.getD i [])) pop).getD j dSol
          = pop.getD j dSol) := by
  intro k
  induction k with
  | zero =>
      intro _
      exact ⟨rfl, fun j hj => absurd hj (Nat.not_lt_zero j), fun _ _ => rfl⟩
  | succ k ih =>
      intro hk
      have ihk := ih (Nat.le_of_succ_le hk)
      obtain ⟨hlen, hdone, hrest⟩ := ihk
      rw [List.range_succ, List.foldl_append]
      simp only [List.foldl_cons, List.foldl_nil]
      refine ⟨?_, ?_, ?_⟩
      · rw [moveStep_length, hlen]
      · intro j hj
        by_cases hji : j = k
        · subst hji
          exact moveStep_flag F fc t bIdx _ j _ (by omega)
        · rw [moveStep_getD_ne _ _ _ _ _ _ _ _ (fun hkj => hji hkj.symm)]
          exact hdone j (by omega)
      · intro j hj
        rw [moveStep_getD_ne _ _ _ _ _ _ _ _ (by omega)]
        exact hrest j (by omega)

theorem movePopulation_length (F fc : ℚ) (t : Task) (bIdx : ℕ)
    (draws : List (List (List ℚ))) (pop : List MkeSolution) :
    (movePopulation F fc t bIdx draws pop).length = pop.length :=
  (movePopulation_prefix_invariant F fc t bIdx draws pop pop.length (le_refl _)).1

theorem movePopulation_flags (F fc : ℚ) (t : Task) (bIdx : ℕ)
    (draws : List (List (List ℚ))) (pop : List MkeSolution) :
    ∀ p ∈ movePopulation F fc t bIdx draws pop, p.monkey_king = false := by
  intro p hp
  obtain ⟨n, hn, hget⟩ := List.getElem_of_mem hp
  have hgetD : (movePopulation F fc t bIdx draws pop).getD n dSol = p := by
    rw [List.getD_eq_getElem _ _ hn, hget]
  have hlen := movePopulation_length F fc t bIdx draws pop
  have := (movePopulation_prefix_invariant F fc t bIdx draws pop pop.length
    (le_refl _)).2.1 n (by rw [hlen] at hn; exact hn)
  rw [show ((List.range pop.length).foldl
      (fun acc i => moveStep F fc t bIdx acc i (draws.getD i [])) pop)
      = movePopulation F fc t bIdx draws pop from rfl, hgetD] at this
  exact this

theorem flagElites_length : ∀ (idxs : List ℕ) (pop : List MkeSolution),
    (flagElites idxs pop).length = pop.length
  | [], _ => rfl
  | i :: is, pop => by
      show (flagElites is (pop.set i (setKing (pop.getD i dSol)))).length = pop.length
      rw [flagElites_length is, List.length_set]

theorem flagElites_getD : ∀ (idxs : List ℕ) (pop : List MkeSolution) (j : ℕ),
    (∀ i ∈ idxs, i < pop.length) →
    (flagElites idxs pop).getD j dSol =
      if j ∈ idxs then setKing (pop.getD j dSol) else pop.getD j dSol
  | [], _, j, _ => by simp [flagElites]
  | i :: is, pop, j, hb => by
      have hstep : flagElites (i :: is) pop
          = flagElites is (pop.set i (setKing (pop.getD i dSol))) := rfl
      rw [hstep, flagElites_getD is _ j
        (fun i' hi' => by rw [List.length_set]; exact hb i' (List.mem_cons_of_mem i hi'))]
      by_cases hji : j = i
      · subst hji
        rw [getD_set_self _ _ _ (hb j (List.mem_cons_self j is))]
        by_cases hjs : j ∈ is
        · rw [if_pos hjs, if_pos (List.mem_cons_self j is)]
          rfl
        · rw [if_neg hjs, if_pos (List.mem_cons_self j is)]
      · rw [getD_set_ne _ _ _ _ (fun h => hji h.symm)]
        by_cases hjs : j ∈ is
        · rw [if_pos hjs, if_pos (List.mem_cons_of_mem i hjs)]
        · rw [if_neg hjs, if_neg (by
            intro hmem
            rcases List.mem_cons.mp hmem with h | h
            · exact hji h
            · exact hjs h)]

theorem countKings_set_true : ∀ (pop : List MkeSolution) (i : ℕ) (a : MkeSolution),
    i < pop.length → (pop.getD i dSol).monkey_king = false → a.monkey_king = true →
    countKings (pop.set i a) = countKings pop + 1
  | p :: tl, 0, a, _, hold, ha => by
      have hp : p.monkey_king = false := by simpa using hold
      simp [countKings, List.countP_cons, hp, ha]
  | p :: tl, i + 1, a, h, hold, ha => by
      have ih := countKings_set_true tl i a (Nat.lt_of_succ_lt_succ h)
        (by simpa using hold) ha
      simp only [List.set_cons_succ, countKings, List.countP_cons] at ih ⊢
      omega

theorem countKings_zero (pop : List MkeSolution)
    (h : ∀ p ∈ pop, p.monkey_king = false) : countKings pop = 0 := by
  unfold countKings
  rw [List.countP_eq_zero]
  intro a ha
  simp [h a ha]

theorem flagElites_count : ∀ (idxs : List ℕ) (pop : List MkeSolution),
    idxs.Nodup → (∀ i ∈ idxs, i < pop.length) →
    (∀ i ∈ idxs, (pop.getD i dSol).monkey_king = false) →
    countKings (flagElites idxs pop) = countKings pop + idxs.length
  | [], pop, _, _, _ => rfl
  | i :: is, pop, hnodup, hb, hf => by
      have hstep : flagElites (i :: is) pop
          = flagElites is (pop.set i (setKing (pop.getD i dSol))) := rfl
      have hi : i < pop.length := hb i (List.mem_cons_self i is)
      have hinotin : i ∉ is := (List.nodup_cons.mp hnodup).1
      have ih := flagElites_count is (pop.set i (setKing (pop.getD i dSol)))
        (List.nodup_cons.mp hnodup).2
        (fun i' hi' => by
          rw [List.length_set]
          exact hb i' (List.mem_cons_of_mem i hi'))
        (fun i' hi' => by
          rw [getD_set_ne _ _ _ _ (fun h => hinotin (by rw [h]; exact hi'))]
          exact hf i' (List.mem_cons_of_mem i hi'))
      rw [hstep, ih, countKings_set_true pop i _ hi (hf i (List.mem_cons_self i is)) rfl]
      simp only [List.length_cons]
      omega

/-! ### C7: elite-fraction resampling -/

/-- C7.  Starting from a population in which no individual is flagged
(true after initialization, and re-established after every
movePopulation pass, whose result never carries a set flag), flagging a
without-replacement sample idxs of int(population_rate * population_size)
indices yields exactly Int.toNat of the floor of population_rate *
population_size flagged individuals; the flag of individual j afterwards
is determined by membership of j in the sampled index list alone,
independent of any fitness value. -/
theorem mkev1_elite_resample (rate : ℚ) (pop : List MkeSolution) (idxs : List ℕ)
    (hflags : ∀ p ∈ pop, p.monkey_king = false)
    (hnodup : idxs.Nodup)
    (hbound : ∀ i ∈ idxs, i < pop.length)
    (hlen : idxs.length = Int.toNat ⌊rate * (pop.length : ℚ)⌋) :
    countKings (flagElites idxs pop) = Int.toNat ⌊rate * (pop.length : ℚ)⌋ ∧
    (flagElites idxs pop).length = pop.length ∧
    (∀ j, j < pop.length →
      (flagElites idxs pop).getD j dSol =
        (if j ∈ idxs then setKing (pop.getD j dSol) else pop.getD j dSol)) ∧
    (∀ F fc t bIdx draws pop1, ∀ p ∈ movePopulation F fc t bIdx draws pop1,
      p.monkey_king = false) := by
  have hfd : ∀ i ∈ idxs, (pop.getD i dSol).monkey_king = false := by
    intro i hi
    have hlt := hbound i hi
    rw [List.getD_eq_getElem _ _ hlt]
    exact hflags _ (List.getElem_mem hlt)
  refine ⟨?_, flagElites_length idxs pop, ?_, ?_⟩
  · rw [flagElites_count idxs pop hnodup hbound hfd, countKings_zero pop hflags, hlen]
    omega
  · intro j _
    exact flagElites_getD idxs pop j hbound
  · intro F fc t bIdx draws pop1
    exact movePopulation_flags F fc t bIdx draws pop1

/-- Witness for C7: two individuals, rate one half, one sampled index. -/
theorem mkev1_elite_resample_witness :
    countKings (flagElites [1]
        [⟨[1], 1, [1], 1, false⟩, ⟨[4], 4, [4], 4, false⟩]) =
      Int.toNat ⌊(1/2 : ℚ) * ((2 : ℕ) : ℚ)⌋ := by
  have h := mkev1_elite_resample (1/2)
    [⟨[1], 1, [1], 1, false⟩, ⟨[4], 4, [4], 4, false⟩] [1]
    (by
      intro p hp
      rcases List.mem_cons.mp hp with h | h
      · rw [h]
      · rcases List.mem_cons.mp h with h2 | h2
        · rw [h2]
        · simp at h2)
    (by simp)
    (by
      intro i hi
      simp only [List.mem_singleton] at hi
      subst hi
      simp)
    (by norm_num)
  exact h.1

/-! ### C2: the tracked global best of the old code base can worsen -/

/-- The concrete one-dimensional task of the failing input: bounds 0 to
10, objective reading the single coordinate. -/
def taskOneDim : Task := ⟨[0], [10], fun v => v.headD 0⟩

theorem taskOneDim_eval (v : List ℚ) : taskOneDim.eval v = v.headD 0 := rfl

theorem taskOneDim_lower : taskOneDim.lower = [0] := rfl

theorem taskOneDim_upper : taskOneDim.upper = [10] := rfl

/-- C2, failing input.  In MonkeyKingEvolutionV1.runTask of
src/NiaPy/algorithms/basic/mke.py the tracked best p_b is a reference to
a population member.  When that member is flagged monkey king,
moveMokeyKingPartice replaces its position and fitness unconditionally
with the best offspring, which may be worse than the current state; the
end-of-iteration comparison then measures fresh candidates against the
already worsened value, so the tracked global-best fitness at iteration
boundaries is not non-increasing.  This theorem evaluates one embedded
iteration at a concrete failing input: dimension 1, bounds 0 to 10,
identity objective, a population of one particle at position (1) with
fitness 1, flagged elite and serving as the tracked best, fluctuation
coefficient 1, fc 1, population rate 1, one offspring row with uniform
draw 1: the only offspring of the elite tracked best is (2) with fitness
2, the replacement is unconditional, and the tracked best fitness rises
from 1 to 2 across the iteration, contradicting the claimed monotone
non-increase. -/
theorem mkev1_tracked_best_worsens :
    ((([⟨[1], 1, [1], 1, true⟩] : List MkeSolution).getD 0 dSol).f = 1) ∧
    (((runIterationV1 1 1 taskOneDim
        [[[1]]] [0] [⟨[1], 1, [1], 1, true⟩] 0).1.getD
      (runIterationV1 1 1 taskOneDim
        [[[1]]] [0] [⟨[1], 1, [1], 1, true⟩] 0).2 dSol).f = 2) ∧
    (1 : ℚ) < 2 := by
  have hmkp : move_monkey_king_particle 1 taskOneDim
      [[1]] ⟨[1], 1, [1], 1, true⟩ = ⟨[2], 2, [1], 1, false⟩ := by
    norm_num [move_monkey_king_particle, move_mk, repair, vAdd, vMul, sMul,
      clampUpper, clampLower, argminIdx, taskOneDim_eval, taskOneDim_lower,
      taskOneDim_upper]
  have hstep : moveStep 1 1 taskOneDim 0
      [⟨[1], 1, [1], 1, true⟩] 0 [[1]] = [⟨[2], 2, [1], 1, false⟩] := by
    norm_num [moveStep, hmkp, update_personal_best]
  have hmove : movePopulation 1 1 taskOneDim 0
      [[[1]]] [⟨[1], 1, [1], 1, true⟩] = [⟨[2], 2, [1], 1, false⟩] := by
    norm_num [movePopulation, hstep, List.range_succ]
  have hflag : flagElites [0] [(⟨[2], 2, [1], 1, false⟩ : MkeSolution)]
      = [⟨[2], 2, [1], 1, true⟩] := rfl
  have hrun : runIterationV1 1 1 taskOneDim
      [[[1]]] [0] [⟨[1], 1, [1], 1, true⟩] 0
      = ([⟨[2], 2, [1], 1, true⟩], 0) := by
    norm_num [runIterationV1, hmove, hflag, argminIdx]
  rw [hrun]
  norm_num

/-! ### C9: runs of the old code base are not a function of the seed

MkeSolution.__init__ of src/NiaPy/algorithms/basic/mke.py reads the
keyword rand with the numpy module-level random generator as default, and
MonkeyKingEvolutionV1.runTask constructs MkeSolution(task=task) without
passing the algorithm's seeded generator self.rand, so every initial
position is drawn from the process-global stream the seed does not fix.
The definition below embeds that initialization with the global stream as
an explicit input. -/

/-- Initial population positions of MonkeyKingEvolutionV1.runTask (old
code base): position i is lower + (upper - lower) ⊙ draw i, where draw i
comes from the numpy module-level generator, not from the seeded
generator owned by the algorithm. -/
def initPopulationNia (np : ℕ) (t : Task) (globalDraw : ℕ → List ℚ) :
    List (List ℚ) :=
  (List.range np).map (fun i => vAdd t.lower (vMul (vSub t.upper t.lower) (globalDraw i)))

/-- C9, failing input.  Two executions with identical seed, task and
configuration but different states of the process-global generator
produce different initial populations and different best initial fitness
values, so the run is not a deterministic function of seed and task. -/
theorem mkev1_run_depends_on_global_rng :
    initPopulationNia 1 taskOneDim (fun _ => [0]) ≠
      initPopulationNia 1 taskOneDim (fun _ => [1]) ∧
    listMin ((initPopulationNia 1 taskOneDim (fun _ => [0])).map taskOneDim.eval) ≠
      listMin ((initPopulationNia 1 taskOneDim (fun _ => [1])).map taskOneDim.eval) := by
  constructor <;>
    norm_num [initPopulationNia, vAdd, vSub, vMul, listMin, List.range_succ,
      taskOneDim_eval, taskOneDim_lower, taskOneDim_upper]

end Mke
